import Mathlib

/-!
Verification of the DAC directive viewer (src/app/app.js).

The development shallowly embeds the core engines of the viewer:

* the provenance resolver `lowestDac` together with the fixed catalogs
  `ALL_DACS` and `DAC_ORDER`,
* the visibility predicate of `updateFilters` (`blockVisible`) and its
  scroll-anchor logic over an abstract box layout,
* the search/highlight engine (`performSearch` / `clearSearch` /
  `navigateSearch`) over a tree model of the rendered DOM.

Strings are modelled as `List Char` where character-level splitting
matters, and JavaScript `Set` objects as `Finset String`.
-/

namespace DacViewer

/-- The catalog of filterable DAC tags, one filter button each
(`const ALL_DACS = [...]` in app.js). -/
def ALL_DACS : List String :=
  ["DAC1", "DAC2", "DAC3", "DAC4", "DAC5", "DAC6", "DAC7", "COVID"]

/-- DAC priority order, lower index = higher priority
(`const DAC_ORDER = [...]` in app.js); COVID ranks between DAC6 and DAC7. -/
def DAC_ORDER : List String :=
  ["DAC1", "DAC2", "DAC3", "DAC4", "DAC5", "DAC6", "COVID", "DAC7"]

/-- Sort key used by the comparator inside `lowestDac`:
`const ai = DAC_ORDER.indexOf(a); (ai === -1 ? 999 : ai)`.
`List.indexOf` returns the list length where JavaScript returns `-1`,
so absence is detected by comparison with `DAC_ORDER.length`. -/
def dacRank (d : String) : Nat :=
  let i := List.indexOf d DAC_ORDER
  if i = DAC_ORDER.length then 999 else i

/-- `lowestDac(sources)` from app.js: guard
`if (!sources || sources.length === 0) return 'DAC1';`, then
`sources.slice().sort(cmp)[0]` where `cmp` compares `dacRank`s.
`Array.prototype.sort` is stable, as is `List.insertionSort`, so taking
the head after a stable sort picks the first element of minimal rank. -/
def lowestDac (sources : List String) : String :=
  if sources.isEmpty then "DAC1"
  else (List.insertionSort (fun a b => dacRank a ≤ dacRank b) sources).headD "DAC1"

/-- Visibility predicate applied by `updateFilters` to article blocks,
annex blocks and TOC entries alike:
`allActive || sources.some(s => activeFilters.has(s))` with
`allActive = activeFilters.size === ALL_DACS.length`. -/
def blockVisible (activeFilters : Finset String) (sources : List String) : Bool :=
  decide (activeFilters.card = ALL_DACS.length) ||
    sources.any (fun s => decide (s ∈ activeFilters))

instance : IsTotal String (fun a b => dacRank a ≤ dacRank b) :=
  ⟨fun a b => Nat.le_total (dacRank a) (dacRank b)⟩

instance : IsTrans String (fun a b => dacRank a ≤ dacRank b) :=
  ⟨fun _ _ _ hab hbc => Nat.le_trans hab hbc⟩

theorem dacRank_of_mem {a : String} (h : a ∈ DAC_ORDER) :
    dacRank a = List.indexOf a DAC_ORDER ∧ List.indexOf a DAC_ORDER < DAC_ORDER.length := by
  have hlt : List.indexOf a DAC_ORDER < DAC_ORDER.length := List.indexOf_lt_length.mpr h
  refine ⟨?_, hlt⟩
  unfold dacRank
  simp only [Nat.ne_of_lt hlt, if_false]

theorem dacRank_of_not_mem {a : String} (h : a ∉ DAC_ORDER) : dacRank a = 999 := by
  have : List.indexOf a DAC_ORDER = DAC_ORDER.length := by
    by_contra hne
    exact h (List.indexOf_lt_length.mp (Nat.lt_of_le_of_ne (List.indexOf_le_length) hne))
  unfold dacRank
  simp [this]

theorem mem_of_dacRank_lt {a : String} (h : dacRank a < 999) : a ∈ DAC_ORDER := by
  by_contra hna
  rw [dacRank_of_not_mem hna] at h
  exact Nat.lt_irrefl _ h

theorem dacRank_injOn {a b : String} (ha : dacRank a < 999) (hb : dacRank b < 999)
    (hab : dacRank a = dacRank b) : a = b := by
  have hma := mem_of_dacRank_lt ha
  have hmb := mem_of_dacRank_lt hb
  obtain ⟨hea, hla⟩ := dacRank_of_mem hma
  obtain ⟨heb, hlb⟩ := dacRank_of_mem hmb
  have hidx : List.indexOf a DAC_ORDER = List.indexOf b DAC_ORDER := by
    rw [← hea, ← heb, hab]
  have hfin : (⟨List.indexOf a DAC_ORDER, hla⟩ : Fin DAC_ORDER.length) =
      ⟨List.indexOf b DAC_ORDER, hlb⟩ := Fin.ext hidx
  calc a = DAC_ORDER.get ⟨List.indexOf a DAC_ORDER, hla⟩ := (List.indexOf_get hla).symm
    _ = DAC_ORDER.get ⟨List.indexOf b DAC_ORDER, hlb⟩ := by rw [hfin]
    _ = b := List.indexOf_get hlb

theorem lowestDac_sorted_eq {sources : List String} (h : ¬ sources.isEmpty) :
    lowestDac sources =
      (List.insertionSort (fun a b => dacRank a ≤ dacRank b) sources).headD "DAC1" := by
  unfold lowestDac
  simp [h]

theorem lowestDac_mem {sources : List String} (h : sources ≠ []) :
    lowestDac sources ∈ sources := by
  have hne : ¬ sources.isEmpty := by simpa [List.isEmpty_iff] using h
  rw [lowestDac_sorted_eq hne]
  have hperm := List.perm_insertionSort (fun a b => dacRank a ≤ dacRank b) sources
  cases hs : List.insertionSort (fun a b => dacRank a ≤ dacRank b) sources with
  | nil =>
      exfalso
      rw [hs] at hperm
      exact h (hperm.symm.eq_nil)
  | cons x xs =>
      rw [hs] at hperm
      exact hperm.mem_iff.mp (by simp)

theorem lowestDac_min {sources : List String} (h : sources ≠ []) :
    ∀ x ∈ sources, dacRank (lowestDac sources) ≤ dacRank x := by
  intro x hx
  have hne : ¬ sources.isEmpty := by simpa [List.isEmpty_iff] using h
  rw [lowestDac_sorted_eq hne]
  have hperm := List.perm_insertionSort (fun a b => dacRank a ≤ dacRank b) sources
  have hsorted := List.sorted_insertionSort (fun a b => dacRank a ≤ dacRank b) sources
  cases hs : List.insertionSort (fun a b => dacRank a ≤ dacRank b) sources with
  | nil =>
      exfalso
      rw [hs] at hperm
      exact h (hperm.symm.eq_nil)
  | cons y ys =>
      rw [hs] at hperm hsorted
      have hxmem : x ∈ y :: ys := hperm.mem_iff.mpr hx
      rcases List.mem_cons.mp hxmem with rfl | hx'
      · simp
      · simpa using List.rel_of_sorted_cons hsorted x hx'

theorem lowestDac_catalog {sources : List String} (h : sources ≠ [])
    (hc : ∃ c ∈ sources, c ∈ DAC_ORDER) : lowestDac sources ∈ DAC_ORDER := by
  obtain ⟨c, hcs, hco⟩ := hc
  have hrc : dacRank c < 999 := by
    obtain ⟨he, hl⟩ := dacRank_of_mem hco
    have : DAC_ORDER.length ≤ 999 := by decide
    omega
  exact mem_of_dacRank_lt (Nat.lt_of_le_of_lt (lowestDac_min h c hcs) hrc)

theorem lowestDac_perm_invariant {sources sources' : List String} (h : sources ≠ [])
    (hp : sources.Perm sources') (hc : ∃ c ∈ sources, c ∈ DAC_ORDER) :
    lowestDac sources = lowestDac sources' := by
  have h' : sources' ≠ [] := by
    intro hnil
    subst hnil
    exact h hp.eq_nil
  obtain ⟨c, hcs, hco⟩ := hc
  have hrc : dacRank c < 999 := by
    obtain ⟨he, hl⟩ := dacRank_of_mem hco
    have : DAC_ORDER.length ≤ 999 := by decide
    omega
  have h1 : dacRank (lowestDac sources) ≤ dacRank (lowestDac sources') :=
    lowestDac_min h _ (hp.mem_iff.mpr (lowestDac_mem h'))
  have h2 : dacRank (lowestDac sources') ≤ dacRank (lowestDac sources) :=
    lowestDac_min h' _ (hp.mem_iff.mp (lowestDac_mem h))
  have heq : dacRank (lowestDac sources) = dacRank (lowestDac sources') :=
    Nat.le_antisymm h1 h2
  have hlt : dacRank (lowestDac sources) < 999 :=
    Nat.lt_of_le_of_lt (lowestDac_min h c hcs) hrc
  exact dacRank_injOn hlt (heq ▸ hlt) heq

/-- C2: for every non-empty provenance set, `lowestDac` returns an element of
the set of minimal `DAC_ORDER` rank; it never returns a non-catalog tag while
a catalog tag is present; and whenever a catalog tag is present the result is
invariant under permutation of the input order. (The unrestricted permutation
invariance of the original claim is refuted by `C2_counterexample`: for sets
consisting only of non-catalog tags the stable sort keeps input order, so the
head depends on that order.) -/
theorem C2_thm (sources sources' : List String) (hne : sources ≠ []) :
    lowestDac sources ∈ sources ∧
    (∀ x ∈ sources, dacRank (lowestDac sources) ≤ dacRank x) ∧
    ((∃ c ∈ sources, c ∈ DAC_ORDER) → lowestDac sources ∈ DAC_ORDER) ∧
    (sources.Perm sources' → (∃ c ∈ sources, c ∈ DAC_ORDER) →
      lowestDac sources = lowestDac sources') :=
  ⟨lowestDac_mem hne, lowestDac_min hne, lowestDac_catalog hne,
    fun hp hc => lowestDac_perm_invariant hne hp hc⟩

/-- C2 witness: concrete application of `C2_thm` to the mixed set
from the specification example ({DAC4, DAC2} resolves to DAC2). -/
theorem C2_witness :
    lowestDac ["DAC4", "DAC2"] ∈ (["DAC4", "DAC2"] : List String) ∧
    lowestDac ["DAC4", "DAC2"] = lowestDac ["DAC2", "DAC4"] :=
  ⟨(C2_thm ["DAC4", "DAC2"] ["DAC2", "DAC4"] (by decide)).1,
    (C2_thm ["DAC4", "DAC2"] ["DAC2", "DAC4"] (by decide)).2.2.2
      (List.Perm.swap "DAC2" "DAC4" [])
      ⟨"DAC4", by decide, by decide⟩⟩

/-- C2 counterexample: `["X", "Y"]` and `["Y", "X"]` are permutations of the
same set of two non-catalog tags, yet `lowestDac` returns a different tag for
each, so the result is not invariant under every permutation of the input. -/
theorem C2_counterexample :
    (["X", "Y"] : List String).Perm ["Y", "X"] ∧
    lowestDac ["X", "Y"] = "X" ∧ lowestDac ["Y", "X"] = "Y" ∧
    ("X" : String) ≠ "Y" :=
  ⟨List.Perm.swap "Y" "X" [], by decide, by decide, by decide⟩

/-- C5 counterexample: on the empty provenance set `lowestDac` silently
returns the default tag "DAC1" instead of signaling a `DataIntegrityError`;
the resolver is a total function with no failure path. -/
theorem C5_counterexample : lowestDac [] = "DAC1" := by decide

/-- C5 (amended): when `lowestDac` receives an empty provenance set it
silently defaults the primary tag to "DAC1"; no error is signaled. -/
theorem C5_thm (sources : List String) (h : sources = []) :
    lowestDac sources = "DAC1" := by
  subst h
  decide

/-- C5 witness: `C5_thm` applied to the empty list. -/
theorem C5_witness : ([] : List String) = [] ∧ lowestDac [] = "DAC1" :=
  ⟨rfl, C5_thm [] rfl⟩

theorem allActive_iff {activeFilters : Finset String}
    (h : activeFilters ⊆ ALL_DACS.toFinset) :
    activeFilters.card = ALL_DACS.length ↔ ∀ d ∈ ALL_DACS, d ∈ activeFilters := by
  have hnodup : ALL_DACS.Nodup := by decide
  have hcard : ALL_DACS.toFinset.card = ALL_DACS.length :=
    List.toFinset_card_of_nodup hnodup
  constructor
  · intro hc
    have heq : activeFilters = ALL_DACS.toFinset :=
      Finset.eq_of_subset_of_card_le h (by omega)
    intro d hd
    rw [heq, List.mem_toFinset]
    exact hd
  · intro hall
    have hsub : ALL_DACS.toFinset ⊆ activeFilters := by
      intro d hd
      exact hall d (List.mem_toFinset.mp hd)
    rw [Finset.Subset.antisymm h hsub, hcard]

/-- C1: under the invariant that the active set is drawn from the filter
buttons (hence a subset of the catalog `ALL_DACS`), a content unit is visible
iff its provenance set intersects the active set or every catalog tag is
active; and when every catalog tag is active, every unit is visible whatever
its provenance set, including sets entirely outside the catalog. -/
theorem C1_thm (activeFilters : Finset String)
    (h : activeFilters ⊆ ALL_DACS.toFinset) (sources : List String) :
    (blockVisible activeFilters sources = true ↔
      ((∃ s ∈ sources, s ∈ activeFilters) ∨ (∀ d ∈ ALL_DACS, d ∈ activeFilters))) ∧
    ((∀ d ∈ ALL_DACS, d ∈ activeFilters) →
      ∀ srcs : List String, blockVisible activeFilters srcs = true) := by
  constructor
  · unfold blockVisible
    rw [Bool.or_eq_true, List.any_eq_true]
    simp only [decide_eq_true_eq]
    rw [allActive_iff h]
    exact or_comm
  · intro hall srcs
    unfold blockVisible
    rw [Bool.or_eq_true]
    left
    simp only [decide_eq_true_eq]
    exact (allActive_iff h).mpr hall

/-- C1 witness: `C1_thm` applied to the active set {DAC1} (a strict
subset of the catalog) and a provenance set that misses it. -/
theorem C1_witness :
    (blockVisible {"DAC1"} ["DAC2", "DAC7"] = true ↔
      ((∃ s ∈ (["DAC2", "DAC7"] : List String), s ∈ ({"DAC1"} : Finset String)) ∨
        (∀ d ∈ ALL_DACS, d ∈ ({"DAC1"} : Finset String)))) ∧
    ((∀ d ∈ ALL_DACS, d ∈ ({"DAC1"} : Finset String)) →
      ∀ srcs : List String, blockVisible {"DAC1"} srcs = true) :=
  C1_thm {"DAC1"} (by decide) ["DAC2", "DAC7"]

/-! ## Search/highlight engine

The rendered content of an article or annex body is modelled as a tree of
text nodes and element nodes (`DomNode`); a body is a list of top-level
nodes. `highlightTextNodes` is embedded as `hlListF`, threading the shared
regex's `lastIndex` through the `TreeWalker`'s `acceptNode` tests exactly
as the global-flag regex does in JavaScript. `clearSearch` is embedded as
replacement of highlight spans by text nodes followed by text-node
normalization (`Node.normalize()` merges adjacent text nodes and removes
empty ones). -/

/-- A node of the rendered DOM: a text node or an element carrying a class
name and children. -/
inductive DomNode where
  | text (s : List Char)
  | elem (cls : String) (children : List DomNode)

/-- The body of one content unit (an `.article-body` or `.annex-body`). -/
abbrev Body := List DomNode

/-- Class names whose subtrees the walker's `acceptNode` rejects:
`node.parentElement.closest('.dac-provenance-marker, .dac-label,
.dac-operation, .title-article-norm, .stitle-article-norm')`. -/
def EXCLUDED_CLASSES : List String :=
  ["dac-provenance-marker", "dac-label", "dac-operation",
   "title-article-norm", "stitle-article-norm"]

/-- `element.textContent` of a node list: concatenation of all text data. -/
def textContentL : List DomNode → List Char
  | [] => []
  | .text s :: rest => s ++ textContentL rest
  | .elem _ cs :: rest => textContentL cs ++ textContentL rest

/-- Lower-casing used to model the regex's `i` flag on the escaped literal
query: a case-insensitive literal match of the same length. -/
def lowerChars (s : List Char) : List Char := s.map Char.toLower

/-- Does the (escaped, case-insensitive) literal `term` match at the start
of `s`? -/
def isMatchAt (term s : List Char) : Bool :=
  decide (lowerChars (s.take term.length) = lowerChars term)

/-- Model of `regex.test(text)` for a regex with the `g` flag: search for
the first match at or after `lastIndex`; on success return the new
`lastIndex` (the match end), on failure the regex resets `lastIndex` to 0
(the caller uses `none` for that). -/
def findFrom (term s : List Char) (lastIndex : Nat) : Option Nat :=
  (((List.range (s.length + 1)).filter
      (fun i => lastIndex ≤ i && isMatchAt term (s.drop i))).head?).map
    (fun i => i + term.length)

/-- One fragment produced by splitting a matched text node: a plain text
fragment or a highlight fragment. -/
inductive Frag where
  | plain (s : List Char)
  | hl (s : List Char)

/-- The text carried by a fragment. -/
def fragChars : Frag → List Char
  | .plain s => s
  | .hl s => s

/-- The `regex.exec` loop of `highlightTextNodes`: scan `s` left to right
(`cur` accumulates, reversed, the pending plain prefix); at each match emit
the pending plain fragment and a highlight fragment holding the matched
characters (original case), then continue after the match. The `term ≠ []`
guard only rules out the empty query, which `performSearch` never passes
(it would not terminate in JavaScript either). -/
def splitAux (term : List Char) : List Char → List Char → List Frag
  | [], cur => if cur.isEmpty then [] else [Frag.plain cur.reverse]
  | c :: rest, cur =>
    if term ≠ [] ∧ isMatchAt term (c :: rest) then
      (if cur.isEmpty then [] else [Frag.plain cur.reverse]) ++
        (Frag.hl ((c :: rest).take term.length) ::
          splitAux term (rest.drop (term.length - 1)) [])
    else
      splitAux term rest (c :: cur)
termination_by s _ => s.length
decreasing_by
  · simp only [List.length_cons, List.length_drop]
    omega
  · simp only [List.length_cons]
    omega

/-- Fragment decomposition of one text node's data for the query `term`. -/
def splitMatches (term s : List Char) : List Frag := splitAux term s []

/-- Concatenation of the fragments' text. -/
def joinFrags (fs : List Frag) : List Char := (fs.map fragChars).flatten

/-- The DOM node created for a fragment: a plain text node, or a
`<span class="search-highlight">` wrapping the matched text. -/
def fragNode : Frag → DomNode
  | .plain s => .text s
  | .hl s => .elem "search-highlight" [.text s]

/-- Nodes inserted in place of a matched text node. -/
def fragsToNodes (fs : List Frag) : List DomNode := fs.map fragNode

/-- `highlightTextNodes(root, regex)`: walk the text nodes in document
order. A text node inside an excluded decoration subtree is rejected
without touching the regex. Otherwise `regex.test` runs from the leaked
`lastIndex`: on success the node is accepted (and later split from
position 0, because the `exec` loop resets `lastIndex`), on failure the
node is kept and `lastIndex` resets to 0. Replacing a matchless accepted
node by `fragsToNodes` is the identity, so the `fragments.length > 0`
guard of the source needs no separate case. Returns the rewritten nodes
and the regex's final `lastIndex`. -/
def hlListF (term : List Char) : Nat → List DomNode → List DomNode × Nat
  | li, [] => ([], li)
  | li, .text s :: rest =>
    match findFrom term s li with
    | some e =>
        let tl := hlListF term e rest
        (fragsToNodes (splitMatches term s) ++ tl.1, tl.2)
    | none =>
        let tl := hlListF term 0 rest
        (DomNode.text s :: tl.1, tl.2)
  | li, .elem cls cs :: rest =>
    if cls ∈ EXCLUDED_CLASSES then
      let tl := hlListF term li rest
      (DomNode.elem cls cs :: tl.1, tl.2)
    else
      let inner := hlListF term li cs
      let tl := hlListF term inner.2 rest
      (DomNode.elem cls inner.1 :: tl.1, tl.2)

/-- Helper of `normalizeNodes`: prepend text data `s` to an already
normalized node list, merging with a leading text node and dropping empty
text, as `Node.normalize()` does. -/
def prependMerged (s : List Char) : List DomNode → List DomNode
  | DomNode.text t :: out => if s ++ t = [] then out else DomNode.text (s ++ t) :: out
  | out => if s = [] then out else DomNode.text s :: out

/-- One level of `Node.normalize()`: merge adjacent text nodes and remove
empty ones. (Descent into child elements happens in `clearListF`.) -/
def normalizeNodes : List DomNode → List DomNode
  | [] => []
  | DomNode.text s :: rest => prependMerged s (normalizeNodes rest)
  | n :: rest => n :: normalizeNodes rest

/-- `clearSearch()` on a node list: every `.search-highlight` span is
replaced by a text node carrying its text content, and each parent of a
replaced span is normalized. Normalization of an untouched normalized
subtree is the identity, so applying it to every element's children is
extensionally the behavior of the source, which calls
`parent.normalize()` for each highlight's parent. -/
def clearListF : List DomNode → List DomNode
  | [] => []
  | DomNode.text s :: rest => DomNode.text s :: clearListF rest
  | DomNode.elem cls cs :: rest =>
    (if cls = "search-highlight" then DomNode.text (textContentL cs)
     else DomNode.elem cls (normalizeNodes (clearListF cs))) :: clearListF rest

/-- Does the list start with a text node? -/
def headIsText : List DomNode → Bool
  | DomNode.text _ :: _ => true
  | _ => false

/-- Normal form of a parsed DOM subtree: no empty text nodes and no two
adjacent text siblings, at every level. `innerHTML` parsing only produces
trees in this form. -/
def normalizedL : List DomNode → Bool
  | [] => true
  | DomNode.text s :: rest => !s.isEmpty && !headIsText rest && normalizedL rest
  | DomNode.elem _ cs :: rest => normalizedL cs && normalizedL rest

/-- No `.search-highlight` span anywhere in the list (a clean document). -/
def noHlL : List DomNode → Bool
  | [] => true
  | DomNode.text _ :: rest => noHlL rest
  | DomNode.elem cls cs :: rest => (cls != "search-highlight") && noHlL cs && noHlL rest

/-- Number of `.search-highlight` spans, in document order
(`document.querySelectorAll('.search-highlight').length`). -/
def countHlL : List DomNode → Nat
  | [] => 0
  | DomNode.text _ :: rest => countHlL rest
  | DomNode.elem cls cs :: rest =>
      (if cls = "search-highlight" then 1 else 0) + countHlL cs + countHlL rest

/-- `clearSearch` applied to one content unit body (the body element is the
parent of its top-level highlights, so its child list is normalized too). -/
def clearBody (b : Body) : Body := normalizeNodes (clearListF b)

/-- `highlightTextNodes(body, regex)` with the regex's `lastIndex` starting
at 0: within one body the walker threads `lastIndex` across text nodes, and
after each body the `exec` loops leave it at 0, so consecutive bodies start
clean. -/
def highlightBody (term : List Char) (b : Body) : Body := (hlListF term 0 b).1

/-- `clearSearch` over all content unit bodies. -/
def clearDoc (doc : List Body) : List Body := doc.map clearBody

/-- Total number of highlight spans over all bodies, in document order. -/
def countHlDoc (doc : List Body) : Nat := (doc.map countHlL).sum

/-- State owned by the search engine: the bodies, one "current" mark flag
per match in document order (`searchMatches[i].classList` holding
`current`), and `currentSearchIndex`. -/
structure SearchState where
  doc : List Body
  marks : List Bool
  cur : Int

/-- Marks after `performSearch` finds `n > 0` matches: exactly match 0 is
current. -/
def oneHotMarks (n : Nat) : List Bool := (List.replicate n false).set 0 true

/-- `performSearch(term)`: clear the previous search; if the trimmed query
is shorter than 2 characters report nothing and stop without scanning;
otherwise highlight every body, collect the matches in document order, and
if any exist mark match 0 current with index 0. -/
def performSearchS (term : List Char) (st : SearchState) : SearchState :=
  let d0 := clearDoc st.doc
  if term.length < 2 then ⟨d0, [], -1⟩
  else
    let d1 := d0.map (highlightBody term)
    let n := countHlDoc d1
    if 0 < n then ⟨d1, oneHotMarks n, 0⟩ else ⟨d1, [], -1⟩

/-- `clearSearch()`: remove all highlights, reset the match list and the
current index. -/
def clearS (st : SearchState) : SearchState := ⟨clearDoc st.doc, [], -1⟩

/-- `navigateSearch(direction)`: no-op when there are no matches; otherwise
unmark the current match (when its index is in range), advance the index by
`direction` with wraparound (`matchCount` becomes 0, `-1` becomes
`matchCount - 1`), mark the new current match, and report the displayed
counter `(currentSearchIndex + 1) / searchMatches.length`. -/
def navigateS (direction : Int) (st : SearchState) : SearchState × Option (Int × Int) :=
  if st.marks.length = 0 then (st, none)
  else
    let len : Int := st.marks.length
    let m1 := if 0 ≤ st.cur ∧ st.cur < len then st.marks.set st.cur.toNat false else st.marks
    let c1 := st.cur + direction
    let c2 := if len ≤ c1 then 0 else c1
    let c3 := if c2 < 0 then len - 1 else c2
    (⟨st.doc, m1.set c3.toNat true, c3⟩, some (c3 + 1, len))

/-- Does the (case-insensitive) literal `term` occur anywhere in `s`? -/
def occursCI (term s : List Char) : Bool :=
  (List.range (s.length + 1)).any (fun i => isMatchAt term (s.drop i))

theorem joinFrags_append (a b : List Frag) :
    joinFrags (a ++ b) = joinFrags a ++ joinFrags b := by
  simp [joinFrags]

theorem joinFrags_splitAux (term : List Char) :
    ∀ (s cur : List Char), joinFrags (splitAux term s cur) = cur.reverse ++ s := by
  intro s cur
  induction s, cur using splitAux.induct term with
  | case1 cur hc =>
      simp [splitAux, hc, joinFrags, List.isEmpty_iff.mp hc]
  | case2 cur hc =>
      simp [splitAux, hc, joinFrags, fragChars]
  | case3 c rest cur h ih =>
      have hlen : 1 ≤ term.length := by
        cases term with
        | nil => exact absurd rfl h.1
        | cons _ _ => simp
      have hpre : joinFrags (if cur.isEmpty then [] else [Frag.plain cur.reverse]) =
          cur.reverse := by
        by_cases hc : cur.isEmpty
        · simp [hc, joinFrags, List.isEmpty_iff.mp hc]
        · simp [hc, joinFrags, fragChars]
      simp only [List.reverse_nil, List.nil_append] at ih
      rw [splitAux, if_pos h, joinFrags_append, hpre]
      have hjoin : joinFrags (Frag.hl ((c :: rest).take term.length) ::
          splitAux term (rest.drop (term.length - 1)) []) =
          (c :: rest).take term.length ++ rest.drop (term.length - 1) := by
        simp only [joinFrags, List.map_cons, List.flatten_cons, fragChars]
        rw [show ((splitAux term (rest.drop (term.length - 1)) []).map fragChars).flatten =
            joinFrags (splitAux term (rest.drop (term.length - 1)) []) from rfl, ih]
      rw [hjoin]
      have htake : (c :: rest).take term.length = c :: rest.take (term.length - 1) := by
        cases ht : term.length with
        | zero => omega
        | succ k => simp [List.take_succ_cons]
      rw [htake]
      simp [List.take_append_drop]
  | case4 c rest cur h ih =>
      rw [splitAux, if_neg h, ih]
      simp

/-- The concatenation of the fragments created for one text node equals the
node's original text, byte for byte. -/
theorem joinFrags_splitMatches (term s : List Char) :
    joinFrags (splitMatches term s) = s := by
  simpa using joinFrags_splitAux term s []

theorem clearListF_append (a b : List DomNode) :
    clearListF (a ++ b) = clearListF a ++ clearListF b := by
  induction a with
  | nil => simp [clearListF]
  | cons hd tl ih => cases hd <;> simp [clearListF, ih]

theorem clearListF_frags (fs : List Frag) :
    clearListF (fragsToNodes fs) = ((fs.map fragChars).map DomNode.text : List DomNode) := by
  induction fs with
  | nil => simp [clearListF, fragsToNodes]
  | cons f tl ih =>
      have htl : clearListF (fragsToNodes tl) = (tl.map fragChars).map DomNode.text := ih
      cases f with
      | plain s =>
          simp only [fragsToNodes, List.map_cons, fragNode, clearListF, List.map_map]
          simp only [fragsToNodes, List.map_map] at htl
          rw [htl]
          simp [fragChars]
      | hl s =>
          simp only [fragsToNodes, List.map_cons, fragNode, clearListF, List.map_map,
            if_pos rfl]
          simp only [fragsToNodes, List.map_map] at htl
          rw [htl]
          simp [fragChars, textContentL]

/-- Every top-level text node in the list carries non-empty data. -/
def topOkTexts : List DomNode → Bool
  | [] => true
  | DomNode.text s :: rest => !s.isEmpty && topOkTexts rest
  | _ :: rest => topOkTexts rest

theorem topOkTexts_prependMerged {out : List DomNode} (h : topOkTexts out = true)
    (s : List Char) : topOkTexts (prependMerged s out) = true := by
  match out with
  | DomNode.text t :: out' =>
      simp only [topOkTexts, Bool.and_eq_true, Bool.not_eq_true', List.isEmpty_eq_false] at h
      by_cases he : s ++ t = []
      · simp only [prependMerged, if_pos he]
        exact h.2
      · simp only [prependMerged, if_neg he, topOkTexts, Bool.and_eq_true,
          Bool.not_eq_true', List.isEmpty_eq_false]
        exact ⟨he, h.2⟩
  | [] =>
      by_cases he : s = []
      · simp [prependMerged, he, topOkTexts]
      · simp only [prependMerged, if_neg he, topOkTexts, Bool.and_eq_true,
          Bool.not_eq_true', List.isEmpty_eq_false]
        exact ⟨he, trivial⟩
  | DomNode.elem cls cs :: out' =>
      by_cases he : s = []
      · simpa [prependMerged, he, topOkTexts] using h
      · simp only [prependMerged, if_neg he, topOkTexts, Bool.and_eq_true,
          Bool.not_eq_true', List.isEmpty_eq_false]
        refine ⟨he, ?_⟩
        simpa [topOkTexts] using h

theorem topOkTexts_normalizeNodes (l : List DomNode) :
    topOkTexts (normalizeNodes l) = true := by
  induction l using normalizeNodes.induct with
  | case1 => simp [normalizeNodes, topOkTexts]
  | case2 s rest ih =>
      simp only [normalizeNodes]
      exact topOkTexts_prependMerged ih s
  | case3 n rest hn ih =>
      cases n with
      | text s => exact absurd rfl (hn s)
      | elem cls cs => simpa [normalizeNodes, topOkTexts] using ih

theorem prependMerged_nil {out : List DomNode} (h : topOkTexts out = true) :
    prependMerged [] out = out := by
  match out with
  | DomNode.text t :: out' =>
      simp only [topOkTexts, Bool.and_eq_true, Bool.not_eq_true', List.isEmpty_eq_false] at h
      simp [prependMerged, h.1]
  | [] => simp [prependMerged]
  | DomNode.elem cls cs :: out' => simp [prependMerged]

theorem prependMerged_prependMerged {out : List DomNode} (h : topOkTexts out = true)
    (a b : List Char) :
    prependMerged a (prependMerged b out) = prependMerged (a ++ b) out := by
  match out with
  | DomNode.text t :: out' =>
      simp only [topOkTexts, Bool.and_eq_true, Bool.not_eq_true', List.isEmpty_eq_false] at h
      have hbt : b ++ t ≠ [] := by simp [h.1]
      have habt : a ++ (b ++ t) ≠ [] := by simp [hbt]
      have habt' : (a ++ b) ++ t ≠ [] := by simpa [List.append_assoc] using habt
      simp [prependMerged, hbt, habt, habt', List.append_assoc]
  | [] =>
      by_cases hb : b = []
      · subst hb
        simp [prependMerged]
      · have hab : a ++ b ≠ [] := by simp [hb]
        simp [prependMerged, hb, hab]
  | DomNode.elem cls cs :: out' =>
      by_cases hb : b = []
      · subst hb
        simp [prependMerged]
      · have hab : a ++ b ≠ [] := by simp [hb]
        simp [prependMerged, hb, hab]

theorem normalizeNodes_textrun (ts : List (List Char)) (B : List DomNode) :
    normalizeNodes (ts.map DomNode.text ++ B) =
      prependMerged ts.flatten (normalizeNodes B) := by
  induction ts with
  | nil =>
      simp only [List.map_nil, List.nil_append, List.flatten_nil]
      exact (prependMerged_nil (topOkTexts_normalizeNodes B)).symm
  | cons t ts' ih =>
      simp only [List.map_cons, List.cons_append, normalizeNodes, List.flatten_cons,
        List.append_eq]
      rw [ih]
      exact prependMerged_prependMerged (topOkTexts_normalizeNodes B) t ts'.flatten

theorem prependMerged_of_ne {s : List Char} {out : List DomNode} (hs : s ≠ [])
    (hout : headIsText out = false) :
    prependMerged s out = DomNode.text s :: out := by
  match out with
  | DomNode.text t :: out' => simp [headIsText] at hout
  | [] => simp [prependMerged, hs]
  | DomNode.elem cls cs :: out' => simp [prependMerged, hs]

theorem clear_id : ∀ l : List DomNode, normalizedL l = true → noHlL l = true →
    normalizeNodes (clearListF l) = l := by
  intro l
  induction l using clearListF.induct with
  | case1 =>
      intro _ _
      simp [clearListF, normalizeNodes]
  | case2 s rest ih =>
      intro hn hh
      simp only [normalizedL, Bool.and_eq_true, Bool.not_eq_true',
        List.isEmpty_eq_false] at hn
      simp only [noHlL] at hh
      simp only [clearListF, normalizeNodes]
      rw [ih hn.2 hh]
      exact prependMerged_of_ne hn.1.1 hn.1.2
  | case3 cls cs rest ih₁ ih₂ =>
      intro hn hh
      simp only [normalizedL, Bool.and_eq_true] at hn
      simp only [noHlL, Bool.and_eq_true, bne_iff_ne, ne_eq] at hh
      simp only [clearListF, if_neg hh.1.1, normalizeNodes]
      rw [ih₁ hn.1 hh.1.2, ih₂ hn.2 hh.2]

theorem search_roundtrip (term : List Char) :
    ∀ (li : Nat) (l : List DomNode), normalizedL l = true → noHlL l = true →
    normalizeNodes (clearListF (hlListF term li l).1) = l := by
  intro li l
  induction li, l using hlListF.induct term with
  | case1 li =>
      intro _ _
      simp [hlListF, clearListF, normalizeNodes]
  | case2 li s rest e he ih =>
      intro hn hh
      simp only [normalizedL, Bool.and_eq_true, Bool.not_eq_true',
        List.isEmpty_eq_false] at hn
      simp only [noHlL] at hh
      simp only [hlListF, he]
      rw [clearListF_append, clearListF_frags]
      rw [normalizeNodes_textrun]
      rw [show ((splitMatches term s).map fragChars).flatten =
          joinFrags (splitMatches term s) from rfl, joinFrags_splitMatches]
      rw [ih hn.2 hh]
      exact prependMerged_of_ne hn.1.1 hn.1.2
  | case3 li s rest he ih =>
      intro hn hh
      simp only [normalizedL, Bool.and_eq_true, Bool.not_eq_true',
        List.isEmpty_eq_false] at hn
      simp only [noHlL] at hh
      simp only [hlListF, he, clearListF, normalizeNodes]
      rw [ih hn.2 hh]
      exact prependMerged_of_ne hn.1.1 hn.1.2
  | case4 li cls cs rest he ih =>
      intro hn hh
      simp only [normalizedL, Bool.and_eq_true] at hn
      simp only [noHlL, Bool.and_eq_true, bne_iff_ne, ne_eq] at hh
      simp only [hlListF, if_pos he, clearListF, if_neg hh.1.1, normalizeNodes]
      rw [clear_id cs hn.1 hh.1.2, ih hn.2 hh.2]
  | case5 li cls cs rest he inner ih₁ ih₂ =>
      intro hn hh
      simp only [normalizedL, Bool.and_eq_true] at hn
      simp only [noHlL, Bool.and_eq_true, bne_iff_ne, ne_eq] at hh
      simp only [hlListF, if_neg he, clearListF, if_neg hh.1.1, normalizeNodes]
      rw [ih₁ hn.1 hh.1.2, ih₂ hn.2 hh.2]

theorem clearDoc_id {doc : List Body} (hn : ∀ b ∈ doc, normalizedL b = true)
    (hh : ∀ b ∈ doc, noHlL b = true) : clearDoc doc = doc := by
  unfold clearDoc
  induction doc with
  | nil => simp
  | cons b tl ih =>
      simp only [List.map_cons]
      rw [show clearBody b = b from clear_id b (hn b (by simp)) (hh b (by simp))]
      rw [ih (fun x hx => hn x (by simp [hx])) (fun x hx => hh x (by simp [hx]))]

theorem clearDoc_highlight (term : List Char) {doc : List Body}
    (hn : ∀ b ∈ doc, normalizedL b = true) (hh : ∀ b ∈ doc, noHlL b = true) :
    clearDoc (doc.map (highlightBody term)) = doc := by
  unfold clearDoc
  induction doc with
  | nil => simp
  | cons b tl ih =>
      simp only [List.map_cons]
      rw [show clearBody (highlightBody term b) = b from
        search_roundtrip term 0 b (hn b (by simp)) (hh b (by simp))]
      rw [ih (fun x hx => hn x (by simp [hx])) (fun x hx => hh x (by simp [hx]))]

/-- C3: for every document whose bodies are in parsed normal form (no empty
text nodes, no adjacent text siblings) and carry no residual highlight,
`performSearch(term)` followed by `clearSearch()` restores every body
exactly — the highlight spans are replaced by their text and the split text
nodes merge back — and within each scanned text node the concatenation of
the plain and highlight fragments created by the search equals the original
text byte for byte. -/
theorem C3_thm (term : List Char) (st : SearchState)
    (hn : ∀ b ∈ st.doc, normalizedL b = true) (hh : ∀ b ∈ st.doc, noHlL b = true) :
    (clearS (performSearchS term st)).doc = st.doc ∧
    (∀ s : List Char, joinFrags (splitMatches term s) = s) := by
  refine ⟨?_, fun s => joinFrags_splitMatches term s⟩
  unfold performSearchS clearS
  by_cases hshort : term.length < 2
  · simp only [hshort, if_true]
    rw [clearDoc_id hn hh, clearDoc_id hn hh]
  · simp only [hshort, if_false]
    rw [apply_ite SearchState.doc]
    simp only [ite_self]
    rw [clearDoc_id hn hh, clearDoc_highlight term hn hh]

/-- C3 witness: a one-article document with body `<p>ab</p>` searched for
"ab" and cleared again. -/
theorem C3_witness :
    (clearS (performSearchS ['a', 'b']
        ⟨[[DomNode.elem "p" [DomNode.text ['a', 'b']]]], [], -1⟩)).doc =
      [[DomNode.elem "p" [DomNode.text ['a', 'b']]]] ∧
    (∀ s : List Char, joinFrags (splitMatches ['a', 'b'] s) = s) :=
  C3_thm ['a', 'b'] ⟨[[DomNode.elem "p" [DomNode.text ['a', 'b']]]], [], -1⟩
    (by
      intro b hb
      simp only [List.mem_singleton] at hb
      subst hb
      simp [normalizedL, headIsText])
    (by
      intro b hb
      simp only [List.mem_singleton] at hb
      subst hb
      simp [noHlL])

theorem countHlL_prependMerged (s : List Char) (out : List DomNode) :
    countHlL (prependMerged s out) = countHlL out := by
  match out with
  | DomNode.text t :: out' =>
      by_cases he : s ++ t = []
      · simp [prependMerged, he, countHlL]
      · simp [prependMerged, he, countHlL]
  | [] =>
      by_cases he : s = []
      · simp [prependMerged, he]
      · simp [prependMerged, he, countHlL]
  | DomNode.elem cls cs :: out' =>
      by_cases he : s = []
      · simp [prependMerged, he]
      · simp [prependMerged, he, countHlL]

theorem countHlL_normalizeNodes (l : List DomNode) :
    countHlL (normalizeNodes l) = countHlL l := by
  induction l using normalizeNodes.induct with
  | case1 => simp [normalizeNodes]
  | case2 s rest ih =>
      simp only [normalizeNodes, countHlL, countHlL_prependMerged, ih]
  | case3 n rest hn ih =>
      cases n with
      | text s => exact absurd rfl (hn s)
      | elem cls cs => simp only [normalizeNodes, countHlL, ih]

theorem countHlL_clearListF (l : List DomNode) : countHlL (clearListF l) = 0 := by
  induction l using clearListF.induct with
  | case1 => simp [clearListF, countHlL]
  | case2 s rest ih => simp only [clearListF, countHlL, ih]
  | case3 cls cs rest ih₁ ih₂ =>
      by_cases hcls : cls = "search-highlight"
      · simp only [clearListF, if_pos hcls, countHlL, ih₂]
      · simp only [clearListF, if_neg hcls, countHlL, ih₂,
          countHlL_normalizeNodes, ih₁, if_neg hcls]

theorem countHlDoc_clearDoc (doc : List Body) : countHlDoc (clearDoc doc) = 0 := by
  unfold countHlDoc clearDoc
  induction doc with
  | nil => simp
  | cons b tl ih =>
      simp only [List.map_cons, List.sum_cons, ih]
      simp [clearBody, countHlL_normalizeNodes, countHlL_clearListF]

/-- C8: a query that is empty or shorter than 2 characters makes
`performSearch` stop right after the initial `clearSearch`: the resulting
document is exactly the cleared document (no body is scanned or
highlighted, and it contains zero highlights), the match list is empty and
the current index is -1 — ignored input, not an error. -/
theorem C8_thm (term : List Char) (st : SearchState) (h : term.length < 2) :
    performSearchS term st = ⟨clearDoc st.doc, [], -1⟩ ∧
    countHlDoc (performSearchS term st).doc = 0 := by
  have he : performSearchS term st = ⟨clearDoc st.doc, [], -1⟩ := by
    unfold performSearchS
    simp [h]
  refine ⟨he, ?_⟩
  rw [he]
  exact countHlDoc_clearDoc st.doc

/-- C8 witness: the one-character query "a" on an empty document. -/
theorem C8_witness :
    performSearchS ['a'] ⟨[], [], -1⟩ = ⟨clearDoc ([] : List Body), [], -1⟩ ∧
    countHlDoc (performSearchS ['a'] ⟨[], [], -1⟩).doc = 0 :=
  C8_thm ['a'] ⟨[], [], -1⟩ (by decide)

/-- C4 evidence of the `lastIndex` leak: the document has two paragraphs
both reading "ab". Searching for "ab" matches the first paragraph
(`regex.test` from `lastIndex` 0), which moves the shared global regex's
`lastIndex` to 2; the walker's `acceptNode` then runs `regex.test` on the
second paragraph's text starting at index 2, finds nothing, and rejects
the node — so the second occurrence of the query is never wrapped even
though `occursCI` confirms it is there. -/
theorem C4_thm :
    highlightBody ['a', 'b']
        [DomNode.elem "p" [DomNode.text ['a', 'b']],
         DomNode.elem "p" [DomNode.text ['a', 'b']]] =
      [DomNode.elem "p" [DomNode.elem "search-highlight" [DomNode.text ['a', 'b']]],
       DomNode.elem "p" [DomNode.text ['a', 'b']]] ∧
    occursCI ['a', 'b'] ['a', 'b'] = true := by
  constructor
  · have h1 : findFrom ['a', 'b'] ['a', 'b'] 0 = some 2 := by decide
    have h2 : findFrom ['a', 'b'] ['a', 'b'] 2 = none := by decide
    have h3 : splitMatches ['a', 'b'] ['a', 'b'] = [Frag.hl ['a', 'b']] := by
      unfold splitMatches
      rw [splitAux]
      rw [if_pos (⟨by decide, by decide⟩ :
        (['a', 'b'] : List Char) ≠ [] ∧ isMatchAt ['a', 'b'] ['a', 'b'] = true)]
      norm_num
      rw [splitAux]
      simp
    simp [highlightBody, hlListF, EXCLUDED_CLASSES, h1, h2, h3, fragsToNodes, fragNode]
  · decide

/-! ## Search navigation state -/

/-- The mark list with exactly position `i` set (match `i` is "current"). -/
def oneHotAt (n i : Nat) : List Bool := (List.replicate n false).set i true

theorem oneHotMarks_eq (n : Nat) : oneHotMarks n = oneHotAt n 0 := rfl

theorem length_oneHotAt (n i : Nat) : (oneHotAt n i).length = n := by
  simp [oneHotAt]

theorem getD_set_self (l : List Bool) (i : Nat) (b : Bool) (h : i < l.length) :
    (l.set i b).getD i false = b := by
  induction l generalizing i with
  | nil => simp at h
  | cons x xs ih =>
      cases i with
      | zero => simp
      | succ j => simpa using ih j (by simpa using h)

theorem getD_set_ne (l : List Bool) (i j : Nat) (b : Bool) (h : i ≠ j) :
    (l.set i b).getD j false = l.getD j false := by
  induction l generalizing i j with
  | nil => simp
  | cons x xs ih =>
      cases i with
      | zero =>
          cases j with
          | zero => exact absurd rfl h
          | succ k => simp
      | succ i' =>
          cases j with
          | zero => simp
          | succ k => simpa using ih i' k (fun hh => h (by rw [hh]))

theorem getD_replicate (n j : Nat) : (List.replicate n false).getD j false = false := by
  induction n generalizing j with
  | zero => simp
  | succ m ih =>
      cases j with
      | zero => simp [List.replicate]
      | succ k =>
          rw [List.replicate, List.getD_cons_succ]
          exact ih k

theorem set_replicate_false (n i : Nat) :
    (List.replicate n false).set i false = List.replicate n false := by
  induction n generalizing i with
  | zero => simp
  | succ m ih =>
      cases i with
      | zero => simp [List.replicate]
      | succ k => simp [List.replicate, ih]

theorem getD_oneHotAt_self (n i : Nat) (h : i < n) : (oneHotAt n i).getD i false = true :=
  getD_set_self _ _ _ (by simpa using h)

theorem getD_oneHotAt_ne (n i j : Nat) (h : i ≠ j) : (oneHotAt n i).getD j false = false := by
  rw [oneHotAt, getD_set_ne _ _ _ _ h, getD_replicate]

/-- The wrapped index computed by `navigateSearch`. -/
def navCur (d : Int) (st : SearchState) : Int :=
  let len : Int := st.marks.length
  let c1 := st.cur + d
  let c2 := if len ≤ c1 then 0 else c1
  if c2 < 0 then len - 1 else c2

theorem navigateS_eq (d : Int) (st : SearchState) (hlen : st.marks.length ≠ 0)
    (hg : 0 ≤ st.cur ∧ st.cur < (st.marks.length : Int)) :
    navigateS d st =
      (⟨st.doc, (st.marks.set st.cur.toNat false).set (navCur d st).toNat true, navCur d st⟩,
        some (navCur d st + 1, (st.marks.length : Int))) := by
  unfold navigateS navCur
  simp only [hlen, if_false, if_pos hg]

theorem navCur_bounds (d : Int) (st : SearchState) (hlen : st.marks.length ≠ 0) :
    0 ≤ navCur d st ∧ navCur d st < (st.marks.length : Int) := by
  simp only [navCur]
  split_ifs <;> omega

/-- The self-consistency invariant of the search engine state: the current
index is -1 iff there are no matches, otherwise it lies in range, and at
most the match at the current index carries the "current" mark. -/
def searchInv (st : SearchState) : Prop :=
  (st.cur = -1 ↔ st.marks.length = 0) ∧
  (st.marks.length ≠ 0 → 0 ≤ st.cur ∧ st.cur < (st.marks.length : Int)) ∧
  (∀ j : Nat, j < st.marks.length → st.marks.getD j false = true → (j : Int) = st.cur)

theorem performSearchS_inv (term : List Char) (st : SearchState) :
    searchInv (performSearchS term st) := by
  unfold performSearchS
  by_cases hshort : term.length < 2
  · simp only [hshort, if_true]
    exact ⟨by simp, by simp, by simp⟩
  · simp only [hshort, if_false]
    by_cases hpos : 0 < countHlDoc ((clearDoc st.doc).map (highlightBody term))
    · simp only [hpos, if_true]
      refine ⟨?_, ?_, ?_⟩
      · simp only [oneHotMarks_eq, length_oneHotAt]
        constructor
        · intro h
          exact absurd h (by decide)
        · intro h
          omega
      · intro _
        simp only [oneHotMarks_eq, length_oneHotAt]
        constructor
        · decide
        · exact_mod_cast hpos
      · intro j hj hmark
        simp only [oneHotMarks_eq, length_oneHotAt] at hj
        by_cases hj0 : j = 0
        · simp [hj0]
        · rw [oneHotMarks_eq, getD_oneHotAt_ne _ _ _ (fun hh => hj0 hh.symm)] at hmark
          exact absurd hmark (by decide)
    · simp only [hpos, if_false]
      exact ⟨by simp, by simp, by simp⟩

theorem clearS_inv (st : SearchState) : searchInv (clearS st) := by
  unfold clearS
  exact ⟨by simp, by simp, by simp⟩

theorem navigateS_inv (d : Int) (st : SearchState) (h : searchInv st) :
    searchInv ((navigateS d st).1) := by
  by_cases hlen : st.marks.length = 0
  · have : navigateS d st = (st, none) := by
      unfold navigateS
      simp [hlen]
    rw [this]
    exact h
  · obtain ⟨hiff, hrange, hmark⟩ := h
    obtain ⟨hc0, hclen⟩ := hrange hlen
    rw [navigateS_eq d st hlen ⟨hc0, hclen⟩]
    simp only [searchInv]
    obtain ⟨hn0, hnlt⟩ := navCur_bounds d st hlen
    have hlenres : ((st.marks.set st.cur.toNat false).set (navCur d st).toNat true).length =
        st.marks.length := by simp
    refine ⟨?_, ?_, ?_⟩
    · simp only [hlenres]
      constructor
      · intro hcc
        omega
      · intro hcc
        exact absurd hcc hlen
    · intro _
      simp only [hlenres]
      exact ⟨hn0, hnlt⟩
    · intro j hj hgot
      simp only [hlenres] at hj
      by_cases hjn : j = (navCur d st).toNat
      · subst hjn
        omega
      · rw [getD_set_ne _ _ _ _ (fun hh => hjn hh.symm)] at hgot
        by_cases hjc : j = st.cur.toNat
        · subst hjc
          rw [getD_set_self _ _ _ (by omega)] at hgot
          exact absurd hgot (by decide)
        · rw [getD_set_ne _ _ _ _ (fun hh => hjc hh.symm)] at hgot
          have := hmark j hj hgot
          omega

/-- C10: after each public search operation the engine state is
self-consistent — `performSearch` and `clearSearch` establish the invariant
unconditionally, and `navigateSearch` preserves it. -/
theorem C10_thm :
    (∀ (term : List Char) (st : SearchState), searchInv (performSearchS term st)) ∧
    (∀ st : SearchState, searchInv (clearS st)) ∧
    (∀ (d : Int) (st : SearchState), searchInv st → searchInv ((navigateS d st).1)) :=
  ⟨performSearchS_inv, clearS_inv, navigateS_inv⟩

/-- C10 witness: `navigateSearch(1)` preserves the invariant on a concrete
one-match state. -/
theorem C10_witness : searchInv ((navigateS 1 ⟨[], [true], 0⟩).1) :=
  C10_thm.2.2 1 ⟨[], [true], 0⟩ (by
    refine ⟨by constructor <;> intro hh <;> simp_all, by intro _; constructor <;> decide, ?_⟩
    intro j hj hgot
    have hj1 : j = 0 := by
      have : j < 1 := by simpa using hj
      omega
    simp [hj1])

/-- Well-formed navigation state: the current index is in range and exactly
the current match is marked — the state `performSearch` leaves behind when
it finds matches, and `navigateSearch` maintains. -/
def wfS (st : SearchState) : Prop :=
  0 ≤ st.cur ∧ st.cur < (st.marks.length : Int) ∧
  st.marks = oneHotAt st.marks.length st.cur.toNat

theorem navigateS_step (st : SearchState) (hwf : wfS st) :
    (navigateS 1 st).1 =
      ⟨st.doc, oneHotAt st.marks.length ((st.cur.toNat + 1) % st.marks.length),
        (((st.cur.toNat + 1) % st.marks.length : Nat) : Int)⟩ := by
  obtain ⟨h0, hlt, hm⟩ := hwf
  have hlen : st.marks.length ≠ 0 := by omega
  rw [navigateS_eq 1 st hlen ⟨h0, hlt⟩]
  have hnav : navCur 1 st = (((st.cur.toNat + 1) % st.marks.length : Nat) : Int) := by
    by_cases h1 : (st.marks.length : Int) ≤ st.cur + 1
    · simp only [navCur]
      rw [if_pos h1, if_neg (by omega : ¬ (0 : Int) < 0)]
      have hh : st.cur.toNat + 1 = st.marks.length := by omega
      rw [hh, Nat.mod_self]
      simp
    · simp only [navCur]
      rw [if_neg h1, if_neg (by omega : ¬ st.cur + 1 < 0)]
      have hh : (st.cur.toNat + 1) % st.marks.length = st.cur.toNat + 1 :=
        Nat.mod_eq_of_lt (by omega)
      rw [hh]
      omega
  dsimp only
  rw [hnav]
  have hset0 : st.marks.set st.cur.toNat false = List.replicate st.marks.length false := by
    conv_lhs => rw [hm]
    unfold oneHotAt
    rw [List.set_set, set_replicate_false]
  rw [Int.toNat_natCast, hset0]
  rfl

theorem navigateS_iter (doc : List Body) (n c : Nat) (hc : c < n) (k : Nat) :
    (fun s => (navigateS 1 s).1)^[k] ⟨doc, oneHotAt n c, (c : Int)⟩ =
      ⟨doc, oneHotAt n ((c + k) % n), (((c + k) % n : Nat) : Int)⟩ := by
  induction k generalizing c with
  | zero =>
      simp [Nat.mod_eq_of_lt hc]
  | succ m ih =>
      rw [Function.iterate_succ_apply]
      have hwf : wfS ⟨doc, oneHotAt n c, (c : Int)⟩ := by
        refine ⟨by positivity, ?_, ?_⟩
        · simp only [length_oneHotAt]
          exact_mod_cast hc
        · simp [length_oneHotAt, Int.toNat_natCast]
      rw [navigateS_step _ hwf]
      simp only [length_oneHotAt, Int.toNat_natCast]
      rw [ih ((c + 1) % n) (Nat.mod_lt _ (by omega))]
      have harith : ((c + 1) % n + m) % n = (c + (m + 1)) % n := by
        rw [Nat.mod_add_mod]
        congr 1
        omega
      rw [harith]

/-- C9: `navigateSearch` is a no-op with zero matches; otherwise it reports
`(currentIndex + 1) / matchCount`, wraps index `matchCount` around to 0 and
index -1 around to `matchCount - 1`, and from any well-formed state `N`
consecutive `navigate(forward)` calls (N = match count) return the engine
to the original state. -/
theorem C9_thm (st : SearchState) (d : Int) :
    (st.marks.length = 0 → navigateS d st = (st, none)) ∧
    (wfS st → (navigateS d st).2 =
      some (((navigateS d st).1).cur + 1, (st.marks.length : Int))) ∧
    (wfS st → st.cur = (st.marks.length : Int) - 1 → ((navigateS 1 st).1).cur = 0) ∧
    (wfS st → st.cur = 0 → ((navigateS (-1) st).1).cur = (st.marks.length : Int) - 1) ∧
    (wfS st → (fun s => (navigateS 1 s).1)^[st.marks.length] st = st) := by
  refine ⟨?_, ?_, ?_, ?_, ?_⟩
  · intro h
    unfold navigateS
    simp [h]
  · intro hwf
    obtain ⟨h0, hlt, _⟩ := hwf
    have hlen : st.marks.length ≠ 0 := by omega
    rw [navigateS_eq d st hlen ⟨h0, hlt⟩]
  · intro hwf hcur
    obtain ⟨h0, hlt, _⟩ := hwf
    have hlen : st.marks.length ≠ 0 := by omega
    rw [navigateS_eq 1 st hlen ⟨h0, hlt⟩]
    dsimp only
    simp only [navCur]
    split_ifs <;> omega
  · intro hwf hcur
    obtain ⟨h0, hlt, _⟩ := hwf
    have hlen : st.marks.length ≠ 0 := by omega
    rw [navigateS_eq (-1) st hlen ⟨h0, hlt⟩]
    dsimp only
    simp only [navCur]
    split_ifs <;> omega
  · intro hwf
    obtain ⟨sdoc, smarks, scur⟩ := st
    obtain ⟨h0, hlt, hm⟩ := hwf
    simp only at h0 hlt hm
    have hlenpos : scur.toNat < smarks.length := by omega
    have hstate : (⟨sdoc, smarks, scur⟩ : SearchState) =
        ⟨sdoc, oneHotAt smarks.length scur.toNat, ((scur.toNat : Nat) : Int)⟩ := by
      simp only [SearchState.mk.injEq]
      exact ⟨trivial, hm, by omega⟩
    have hiter := navigateS_iter sdoc smarks.length scur.toNat hlenpos smarks.length
    have hmod : (scur.toNat + smarks.length) % smarks.length = scur.toNat := by
      rw [Nat.add_mod_right]
      exact Nat.mod_eq_of_lt hlenpos
    rw [hmod] at hiter
    calc (fun s => (navigateS 1 s).1)^[smarks.length] (⟨sdoc, smarks, scur⟩ : SearchState)
        = (fun s => (navigateS 1 s).1)^[smarks.length]
            ⟨sdoc, oneHotAt smarks.length scur.toNat, ((scur.toNat : Nat) : Int)⟩ := by
          rw [← hstate]
      _ = ⟨sdoc, oneHotAt smarks.length scur.toNat, ((scur.toNat : Nat) : Int)⟩ := hiter
      _ = ⟨sdoc, smarks, scur⟩ := by
          simp only [SearchState.mk.injEq]
          exact ⟨trivial, hm.symm, by omega⟩

/-- C9 witness: two matches, current index 0; two `navigate(forward)` calls
return to the original state. -/
theorem C9_witness :
    (fun s => (navigateS 1 s).1)^[2] (⟨[], oneHotAt 2 0, 0⟩ : SearchState) =
      ⟨[], oneHotAt 2 0, 0⟩ :=
  (C9_thm ⟨[], oneHotAt 2 0, 0⟩ 1).2.2.2.2 ⟨by decide, by decide, by decide⟩

/-! ## Filter engine: box layout and scroll anchor

`updateFilters` measures on-screen positions (`getBoundingClientRect`,
`window.pageYOffset`, `window.scrollTo`). The host layout is modelled as a
vertical stack of boxes: every visible box occupies its height, a hidden
box (`display: none`, as the annex blocks are hidden explicitly and the
filtered-out article blocks via their class) occupies no height and
reports a zero rectangle. -/

/-- One top-level box of the rendered page. `candidate` marks the anchor
candidates of `updateFilters` (`.chapter-heading` and
`.article-block > .article-header`); `filterable` marks the boxes whose
visibility `updateFilters` recomputes (article and annex blocks — chapter
headings never change visibility). -/
structure Box where
  candidate : Bool
  filterable : Bool
  sources : List String
  height : Int
  visible : Bool

/-- The two scroll behaviors of the host interface. -/
inductive ScrollKind where
  | instant
  | smooth

/-- A scroll command issued to the host (`window.scrollTo`). -/
structure ScrollCmd where
  kind : ScrollKind
  y : Int

/-- Pair each box with its document-absolute top: visible boxes stack
vertically, hidden boxes occupy no height. -/
def layoutTops : Int → List Box → List (Box × Int)
  | _, [] => []
  | y, b :: rest => (b, y) :: layoutTops (y + if b.visible then b.height else 0) rest

/-- `getBoundingClientRect().top` of one box: its layout top minus the
scroll offset when visible, 0 when hidden (`display: none` elements report
a zero rectangle). -/
def rectTopOf (b : Box) (top scrollY : Int) : Int :=
  if b.visible then top - scrollY else 0

/-- `getBoundingClientRect().top` of the box at index `i`. -/
def rectTopAt (boxes : List Box) (scrollY : Int) (i : Nat) : Int :=
  match (layoutTops 0 boxes).get? i with
  | some (b, top) => rectTopOf b top scrollY
  | none => 0

/-- The anchor-selection loop of `updateFilters`: walk the candidates in
document order keeping the first one of strictly smallest
`Math.abs(rect.top)`. -/
def selectAnchorAux (scrollY : Int) : List (Box × Int) → Nat → Option (Nat × Nat) → Option Nat
  | [], _, best => best.map Prod.fst
  | (b, top) :: rest, i, best =>
      if b.candidate then
        let dist := (rectTopOf b top scrollY).natAbs
        let better := match best with
          | none => true
          | some (_, bd) => dist < bd
        if better then selectAnchorAux scrollY rest (i + 1) (some (i, dist))
        else selectAnchorAux scrollY rest (i + 1) best
      else selectAnchorAux scrollY rest (i + 1) best

/-- Index of the scroll anchor chosen before the mutation, if any. -/
def selectAnchor (boxes : List Box) (scrollY : Int) : Option Nat :=
  selectAnchorAux scrollY (layoutTops 0 boxes) 0 none

/-- Visibility recomputation of one box: filterable boxes get
`blockVisible`, others are untouched. -/
def applyVis (activeFilters : Finset String) (b : Box) : Box :=
  if b.filterable then { b with visible := blockVisible activeFilters b.sources } else b

/-- Is the box at index `i` visible? -/
def visibleAt (bs : List Box) (i : Nat) : Bool :=
  match bs.get? i with
  | some b => b.visible
  | none => false

/-- Result of one `updateFilters` run: the mutated boxes, the final scroll
offset, and the scroll commands issued. -/
structure FilterResult where
  boxes : List Box
  scrollY : Int
  cmds : List ScrollCmd

/-- `updateFilters()`: record the anchor and its viewport-relative top,
apply the visibility predicate to every box, then re-measure the anchor —
the same element, located by identity — and scroll (with smooth scrolling
temporarily disabled, hence an instant command) so that its new page
position lands at the recorded viewport offset. If no anchor was found the
scroll adjustment is skipped. -/
def updateFiltersModel (activeFilters : Finset String) (boxes : List Box)
    (scrollY : Int) : FilterResult :=
  let anchor? := selectAnchor boxes scrollY
  let boxes' := boxes.map (applyVis activeFilters)
  match anchor? with
  | none => ⟨boxes', scrollY, []⟩
  | some a =>
      let aVY := rectTopAt boxes scrollY a
      let newPageY := rectTopAt boxes' scrollY a + scrollY
      ⟨boxes', newPageY - aVY, [⟨ScrollKind.instant, newPageY - aVY⟩]⟩

/-- The nearest still-visible preceding anchor candidate, in document
order. -/
def fallbackAnchor (boxes' : List Box) (a : Nat) : Option Nat :=
  (List.range a).reverse.find? (fun i =>
    match boxes'.get? i with
    | some b => b.candidate && b.visible
    | none => false)

/-- Reference behavior following the specification's wording for step 4 of
`applyFilter`: re-locate the recorded anchor by identity, and when it is
hidden after the mutation fall back to the nearest still-visible preceding
anchor in document order before adjusting the scroll offset. Stated only
for comparison with `updateFiltersModel`; the source has no fallback. -/
def updateFiltersSpec (activeFilters : Finset String) (boxes : List Box)
    (scrollY : Int) : FilterResult :=
  let anchor? := selectAnchor boxes scrollY
  let boxes' := boxes.map (applyVis activeFilters)
  match anchor? with
  | none => ⟨boxes', scrollY, []⟩
  | some a =>
      let a'? := match boxes'.get? a with
        | some b => if b.visible then some a else fallbackAnchor boxes' a
        | none => none
      match a'? with
      | none => ⟨boxes', scrollY, []⟩
      | some a' =>
          let aVY := rectTopAt boxes scrollY a'
          let newPageY := rectTopAt boxes' scrollY a' + scrollY
          ⟨boxes', newPageY - aVY, [⟨ScrollKind.instant, newPageY - aVY⟩]⟩

theorem layoutTops_fst (bs : List Box) : ∀ (y : Int) (i : Nat),
    ((layoutTops y bs).get? i).map Prod.fst = bs.get? i := by
  induction bs with
  | nil => intro y i; simp [layoutTops]
  | cons b rest ih =>
      intro y i
      cases i with
      | zero => simp [layoutTops]
      | succ j =>
          simp only [layoutTops, List.get?_cons_succ]
          exact ih _ j

theorem rectTopAt_visible {bs : List Box} {i : Nat} (h : visibleAt bs i = true)
    (sy : Int) : rectTopAt bs sy i = rectTopAt bs 0 i - sy := by
  unfold visibleAt at h
  unfold rectTopAt
  cases hl : (layoutTops 0 bs).get? i with
  | none =>
      have hb : bs.get? i = none := by
        have := layoutTops_fst bs 0 i
        rw [hl] at this
        exact this.symm ▸ rfl
      rw [hb] at h
      simp at h
  | some p =>
      obtain ⟨b, t⟩ := p
      have hb : bs.get? i = some b := by
        have := layoutTops_fst bs 0 i
        rw [hl] at this
        simpa using this.symm
      rw [hb] at h
      simp only at h
      simp [rectTopOf, h]

theorem rectTopAt_hidden {bs : List Box} {i : Nat} (h : visibleAt bs i = false)
    (sy : Int) : rectTopAt bs sy i = 0 := by
  unfold visibleAt at h
  unfold rectTopAt
  cases hl : (layoutTops 0 bs).get? i with
  | none => rfl
  | some p =>
      obtain ⟨b, t⟩ := p
      have hb : bs.get? i = some b := by
        have := layoutTops_fst bs 0 i
        rw [hl] at this
        simpa using this.symm
      rw [hb] at h
      simp only at h
      simp [rectTopOf, h]

/-- C6: when the filter application does not change the visibility of the
chosen anchor (the candidate closest to the viewport top, ties to the first
in document order), the anchor's viewport-relative top after the corrective
scroll equals its value before the mutation, and every scroll command
issued by `updateFilters` is an instant one — no smooth transition. -/
theorem C6_thm (activeFilters : Finset String) (boxes : List Box) (scrollY : Int)
    (a : Nat) (hsel : selectAnchor boxes scrollY = some a)
    (hvis : visibleAt boxes a = visibleAt (boxes.map (applyVis activeFilters)) a) :
    rectTopAt (updateFiltersModel activeFilters boxes scrollY).boxes
        (updateFiltersModel activeFilters boxes scrollY).scrollY a =
      rectTopAt boxes scrollY a ∧
    ∀ c ∈ (updateFiltersModel activeFilters boxes scrollY).cmds,
      c.kind = ScrollKind.instant := by
  unfold updateFiltersModel
  rw [hsel]
  dsimp only
  constructor
  · cases hv : visibleAt (boxes.map (applyVis activeFilters)) a with
    | true =>
        have hvb : visibleAt boxes a = true := hvis.trans hv
        rw [rectTopAt_visible hv scrollY, rectTopAt_visible hvb scrollY]
        rw [rectTopAt_visible hv]
        omega
    | false =>
        rw [rectTopAt_hidden hv]
        rw [rectTopAt_hidden (hvis.trans hv)]
  · intro c hc
    simp only [List.mem_singleton] at hc
    subst hc
    rfl

/-- C6 witness: three boxes (chapter heading, a DAC1 article, a DAC7
article) with the DAC1 article as anchor; filtering to {DAC1} hides only
the DAC7 article below the anchor. -/
theorem C6_witness :
    rectTopAt (updateFiltersModel {"DAC1"}
        [⟨true, false, [], 5, true⟩, ⟨true, true, ["DAC1"], 10, true⟩,
         ⟨true, true, ["DAC7"], 7, true⟩] 6).boxes
      (updateFiltersModel {"DAC1"}
        [⟨true, false, [], 5, true⟩, ⟨true, true, ["DAC1"], 10, true⟩,
         ⟨true, true, ["DAC7"], 7, true⟩] 6).scrollY 1 =
      rectTopAt [⟨true, false, [], 5, true⟩, ⟨true, true, ["DAC1"], 10, true⟩,
         ⟨true, true, ["DAC7"], 7, true⟩] 6 1 ∧
    ∀ c ∈ (updateFiltersModel {"DAC1"}
        [⟨true, false, [], 5, true⟩, ⟨true, true, ["DAC1"], 10, true⟩,
         ⟨true, true, ["DAC7"], 7, true⟩] 6).cmds,
      c.kind = ScrollKind.instant :=
  C6_thm {"DAC1"}
    [⟨true, false, [], 5, true⟩, ⟨true, true, ["DAC1"], 10, true⟩,
     ⟨true, true, ["DAC7"], 7, true⟩] 6 1 (by decide) (by decide)

/-- C7 (amended): `updateFilters` re-locates the recorded anchor by
identity but has no fallback: when the anchor is hidden by the mutation,
the adjustment still uses the hidden anchor, whose rectangle reports top 0,
so the new scroll offset becomes `scrollY - anchorViewportY` regardless of
any still-visible preceding anchor. -/
theorem C7_thm (activeFilters : Finset String) (boxes : List Box) (scrollY : Int)
    (a : Nat) (hsel : selectAnchor boxes scrollY = some a)
    (hhid : visibleAt (boxes.map (applyVis activeFilters)) a = false) :
    (updateFiltersModel activeFilters boxes scrollY).scrollY =
      scrollY - rectTopAt boxes scrollY a := by
  unfold updateFiltersModel
  rw [hsel]
  dsimp only
  rw [rectTopAt_hidden hhid]
  omega

/-- C7 witness: `C7_thm` on the two-article page of
`C7_counterexample`. -/
theorem C7_witness :
    (updateFiltersModel {"DAC1"}
        [⟨true, true, ["DAC1"], 10, true⟩, ⟨true, true, ["DAC7"], 10, true⟩] 8).scrollY =
      8 - rectTopAt [⟨true, true, ["DAC1"], 10, true⟩, ⟨true, true, ["DAC7"], 10, true⟩] 8 1 :=
  C7_thm {"DAC1"}
    [⟨true, true, ["DAC1"], 10, true⟩, ⟨true, true, ["DAC7"], 10, true⟩] 8 1
    (by decide) (by decide)

/-- C7 counterexample: two articles (DAC1 then DAC7), scroll offset 8, the
DAC7 article is the anchor (distance 2 versus 8). Filtering to {DAC1} hides
the anchor. The source computes scroll offset 6 from the hidden anchor's
zero rectangle; the specified fallback to the preceding still-visible
anchor would compute 8 — so `updateFilters` does not fall back. -/
theorem C7_counterexample :
    selectAnchor [⟨true, true, ["DAC1"], 10, true⟩, ⟨true, true, ["DAC7"], 10, true⟩] 8 =
      some 1 ∧
    visibleAt ((updateFiltersModel {"DAC1"}
        [⟨true, true, ["DAC1"], 10, true⟩, ⟨true, true, ["DAC7"], 10, true⟩] 8).boxes) 1 =
      false ∧
    (updateFiltersModel {"DAC1"}
        [⟨true, true, ["DAC1"], 10, true⟩, ⟨true, true, ["DAC7"], 10, true⟩] 8).scrollY = 6 ∧
    (updateFiltersSpec {"DAC1"}
        [⟨true, true, ["DAC1"], 10, true⟩, ⟨true, true, ["DAC7"], 10, true⟩] 8).scrollY = 8 := by
  refine ⟨by decide, by decide, by decide, by decide⟩

end DacViewer
